import Mathlib

/-!
Shallow embedding of the point-scanning program (`point.h` and `main.cpp`).

The `Point<T,SIZE>` class is modelled at its integral instantiation
`T = int` (32-bit), the instantiation exercised by most of the program:
a point is a `List Int` of length `n`, machine-integer limits appear as
explicit range checks against `int32Min`/`int32Max`.

A C++ `istream` is modelled as the list of characters not yet consumed
together with its failure flag (`failbit`/`eofbit` collapsed to one
Boolean, since the code only ever tests `good()` and calls `clear()`).
Formatted extraction (`is >> c`, `is >> temp`) is modelled after the
standard `num_get`/sentry semantics: skip whitespace, consume exactly
the characters that form the token, set the flag on failure, and set it
as well when the extracted token runs into end of input (`eofbit`).

Arithmetic notes for `distance`: the source accumulates
`sum_of_squares += std::pow(a - b, 2)` in a variable of type `T`.
For `T = int` the `pow` result is an exactly-represented double whenever
the converted-back value is in `int` range, and the conversion of an
out-of-range double to `int` is undefined behaviour in C++; the model
therefore returns `none` exactly when a subtraction or an accumulation
step leaves the 32-bit range, and the exact integer value otherwise.
-/

namespace PointScan

/-- Whitespace test matching `std::isspace` in the default locale. -/
def isWS (c : Char) : Bool :=
  c = ' ' || c = '\t' || c = '\n' || c = '\x0b' || c = '\x0c' || c = '\r'

/-- Skip leading whitespace, as the skipping sentry of formatted extraction does. -/
def skipWS : List Char → List Char
  | [] => []
  | c :: cs => if isWS c then skipWS cs else c :: cs

/-- Decimal digit test for characters. -/
def isDig (c : Char) : Bool := 48 ≤ c.toNat && c.toNat ≤ 57

/-- Numeric value of a digit character. -/
def digVal (c : Char) : Nat := c.toNat - 48

/-- Greedily split leading decimal digits (as numeric values) off a character list,
as `num_get` consumes digit characters until the first character that cannot
continue the literal (that character stays in the stream). -/
def takeDigits : List Char → List Nat × List Char
  | [] => ([], [])
  | c :: cs =>
      if isDig c then
        let r := takeDigits cs
        (digVal c :: r.1, r.2)
      else ([], c :: cs)

/-- Value of a most-significant-first digit list. -/
def digitsToNat (ds : List Nat) : Nat := ds.foldl (fun a d => 10 * a + d) 0

/-- State of a C++ input stream: the characters not yet consumed, and whether an
error flag (`failbit`/`eofbit`) is currently set, i.e. `good()` is false. -/
structure IState where
  buf : List Char
  fail : Bool
deriving DecidableEq

/-- Models `is >> parenthesis` for a `char`: a no-op on a failed stream; otherwise
skip whitespace and extract one character, setting the error flag when end of
input is reached before a character is available. -/
def readChar (st : IState) : Option Char × IState :=
  if st.fail then (none, st)
  else
    match skipWS st.buf with
    | [] => (none, ⟨[], true⟩)
    | c :: cs => (some c, ⟨cs, false⟩)

/-- Smallest value of a 32-bit `int`, `-(2^31)`. -/
def int32Min : Int := -2147483648

/-- Largest value of a 32-bit `int`, `2^31 - 1`. -/
def int32Max : Int := 2147483647

/-- `v` is representable as a 32-bit `int`. -/
def inRange32 (v : Int) : Prop := int32Min ≤ v ∧ v ≤ int32Max

instance (v : Int) : Decidable (inRange32 v) :=
  inferInstanceAs (Decidable (int32Min ≤ v ∧ v ≤ int32Max))

/-- The `num_get` lexing step for an `int` after the whitespace skip: consume
an optional sign and the maximal run of decimal digits.  The error flag is set
(and no value delivered, since the caller tests `good()` before using `temp`)
when no character remains, when no digit could be read, when the digits run
into end of input (`eofbit` after a successful extraction), or when the
literal overflows the `int` range. -/
def lexInt : List Char → Option Int × IState
  | [] => (none, ⟨[], true⟩)
  | c :: cs =>
      let sr : Int × List Char :=
        if c = '-' then (-1, cs) else if c = '+' then (1, cs) else (1, c :: cs)
      let td := takeDigits sr.2
      if td.1 = [] then (none, ⟨td.2, true⟩)
      else
        let v : Int := sr.1 * (digitsToNat td.1 : Int)
        if td.2 = [] then (none, ⟨[], true⟩)
        else if v < int32Min ∨ int32Max < v then (none, ⟨td.2, true⟩)
        else (some v, ⟨td.2, false⟩)

/-- Models `is >> temp` for an `int`: a no-op on a failed stream, otherwise
skip whitespace and lex the literal. -/
def readInt (st : IState) : Option Int × IState :=
  if st.fail then (none, st) else lexInt (skipWS st.buf)

/-- The two classified failures thrown by `Point::fromStream`, each carrying the
`what()` message of the exception object. -/
inductive PointError where
  | emptyStream (msg : String)
  | invalidSymbol (msg : String)
deriving DecidableEq

/-- Outcome of one `fromStream` call: the exception thrown (if any), the stream
state afterwards, and the value of the `components_` array afterwards. -/
structure PRes where
  err : Option PointError
  st : IState
  comps : List Int
deriving DecidableEq

/-- The component loop of `Point::fromStream`:
`for (i; i < SIZE; i++) { is >> temp; if (!is.good()) { is.clear();
throw InvalidSymbolError("unable to read value"); } components_[i] = temp; }`.
`i` is the next array index, `k` the number of components still to read. -/
def readComps : IState → List Int → Nat → Nat → PRes
  | st, comps, _, 0 => ⟨none, st, comps⟩
  | st, comps, i, k + 1 =>
      match readInt st with
      | (none, st1) =>
          ⟨some (.invalidSymbol "unable to read value"), ⟨st1.buf, false⟩, comps⟩
      | (some v, st1) => readComps st1 (comps.set i v) (i + 1) k

/-- Shallow embedding of `Point<int,n>::fromStream`:  read the opening
parenthesis (end of input there throws `EmptyStreamError`, a wrong character
`InvalidSymbolError`), then the `n` components, then the closing parenthesis
with the same classification as the opening one.  Every throw that follows a
failed read is preceded by `is.clear()`. -/
def fromStream (n : Nat) (st : IState) (comps : List Int) : PRes :=
  match readChar st with
  | (none, st1) => ⟨some (.emptyStream "empty stream"), ⟨st1.buf, false⟩, comps⟩
  | (some c, st1) =>
      if c ≠ '(' then ⟨some (.invalidSymbol "invalid symbol"), st1, comps⟩
      else
        let r := readComps st1 comps 0 n
        match r.err with
        | some _ => r
        | none =>
            match readChar r.st with
            | (none, st2) => ⟨some (.emptyStream "empty stream"), ⟨st2.buf, false⟩, r.comps⟩
            | (some c2, st2) =>
                if c2 ≠ ')' then ⟨some (.invalidSymbol "invalid symbol"), st2, r.comps⟩
                else ⟨none, st2, r.comps⟩

/-- Decimal digits of a natural number, most significant first; the fuel
argument makes the recursion structural, `n + 1` units always suffice. -/
def digitsAux : Nat → Nat → List Nat → List Nat
  | 0, _, acc => acc
  | f + 1, n, acc => if n < 10 then n :: acc else digitsAux f (n / 10) (n % 10 :: acc)

/-- Decimal digits of `n`, most significant first. -/
def digitsOfNat (n : Nat) : List Nat := digitsAux (n + 1) n []

/-- Character for the decimal digit `d`. -/
def digitChar (d : Nat) : Char := Char.ofNat (48 + d)

/-- Decimal text of a natural number. -/
def natChars (n : Nat) : List Char := (digitsOfNat n).map digitChar

/-- Decimal text of an `int`, as `operator<<` emits it. -/
def intChars (v : Int) : List Char :=
  if v < 0 then '-' :: natChars (-v).toNat else natChars v.toNat

/-- The component part of the serialized form: each component's text followed
by one space, as the loop body `os << components_[i] << " "` emits it. -/
def encodeVals : List Int → List Char
  | [] => []
  | v :: vs => intChars v ++ ' ' :: encodeVals vs

/-- Models `Point<int,n>::toStream`: `os << "( "`, then each component followed
by a space, then `os << ")"`. -/
def toStream (comps : List Int) : List Char :=
  '(' :: ' ' :: encodeVals comps ++ [')']

/-- The serialized form truncated just before the closing parenthesis: the
stream text of a point whose input ends at the closing-marker position. -/
def openOnly (comps : List Int) : List Char :=
  '(' :: ' ' :: encodeVals comps

/-- The accumulator loop of `Point<int,n>::distance`:
`T sum_of_squares = 0; for (i) sum_of_squares += std::pow(a_i - b_i, 2);`.
The subtraction and each accumulation live in type `T = int`; a step whose
exact value leaves the 32-bit range is undefined behaviour in the source
(signed overflow, or conversion of an out-of-range `double` to `int`) and is
modelled as `none`. -/
def sumSqAux : List Int → List Int → Int → Option Int
  | a :: as, b :: bs, acc =>
      let d := a - b
      if d < int32Min ∨ int32Max < d then none
      else
        let s := acc + d ^ 2
        if s < int32Min ∨ int32Max < s then none
        else sumSqAux as bs s
  | _, _, acc => some acc

/-- The `sum_of_squares` value computed by `Point<int,n>::distance`. -/
def sumSqI (p q : List Int) : Option Int := sumSqAux p q 0

/-- Models `Point<int,n>::distance`: `std::sqrt(sum_of_squares)` on the
`T`-typed accumulator; `none` where the accumulation is undefined. -/
noncomputable def distanceI (p q : List Int) : Option ℝ :=
  (sumSqI p q).map fun s => Real.sqrt (s : ℝ)

/-- The default-constructed point: `components_{}`, all components zero. -/
def zeroPt (n : Nat) : List Int := List.replicate n 0

/-- Magnitude of a point: its distance from the default-constructed point of
the same size, exactly the expression `distance(Point{})` used by
`operator>`. -/
noncomputable def magI (p : List Int) : Option ℝ := distanceI p (zeroPt p.length)

/-- Models `Point::operator>`: `distance(Point{}) > p.distance(Point{})`.
Where either distance is undefined the comparison is undefined behaviour in
the source; the model makes it `False` (the maximum is then not replaced). -/
def ptGT (p q : List Int) : Prop :=
  match magI p, magI q with
  | some a, some b => b < a
  | _, _ => False

/-- Decision procedure for `ptGT`: compare the integer sums of squares, which
agrees with comparing their square roots. -/
def gtB (p q : List Int) : Bool :=
  match sumSqI p (zeroPt p.length), sumSqI q (zeroPt q.length) with
  | some a, some b => decide (b < a)
  | _, _ => false

instance ptGTDec (p q : List Int) : Decidable (ptGT p q) := by
  have key : ∀ (as bs : List Int) (acc s : Int),
      sumSqAux as bs acc = some s → 0 ≤ acc → 0 ≤ s := by
    intro as
    induction as with
    | nil => intro bs acc s h hacc; simp [sumSqAux] at h; omega
    | cons a as ih =>
        intro bs acc s h hacc
        cases bs with
        | nil => simp [sumSqAux] at h; omega
        | cons b bs =>
            simp only [sumSqAux] at h
            by_cases h1 : a - b < int32Min ∨ int32Max < (a - b)
            · simp [h1] at h
            · simp only [h1, if_false] at h
              by_cases h2 : acc + (a - b) ^ 2 < int32Min ∨ int32Max < acc + (a - b) ^ 2
              · simp [h2] at h
              · simp only [h2, if_false] at h
                exact ih bs _ s h (by positivity)
  refine decidable_of_iff (gtB p q = true) ?_
  unfold ptGT gtB magI distanceI
  cases hp : sumSqI p (zeroPt p.length) with
  | none => simp
  | some a =>
      cases hq : sumSqI q (zeroPt q.length) with
      | none => simp
      | some b =>
          simp only [Option.map_some]
          have ha : (0 : Int) ≤ a := key _ _ 0 a hp le_rfl
          have hb : (0 : Int) ≤ b := key _ _ 0 b hq le_rfl
          constructor
          · intro h
            have := of_decide_eq_true h
            exact Real.sqrt_lt_sqrt (by exact_mod_cast hb) (by exact_mod_cast this)
          · intro h
            have : (b : ℝ) < (a : ℝ) :=
              (Real.sqrt_lt_sqrt_iff (by exact_mod_cast hb)).mp h
            exact decide_eq_true (by exact_mod_cast this)

/-- Follows the spec's words, for comparison with `sumSqI`: the sum of squared
component differences accumulated exactly (the recommended widened, real-domain
accumulator; over the integers the exact sum coincides with the real sum). -/
def sumSqWidened : List Int → List Int → Int
  | a :: as, b :: bs => (a - b) ^ 2 + sumSqWidened as bs
  | _, _ => 0

/-- Models `while (infile.get() != '\n');`, the resynchronization after an
`InvalidSymbolError`: consume characters up to and including the next newline.
When no newline remains, `get()` returns `EOF` (never `'\n'`) on every further
call, so the C++ loop never terminates; the model returns `none` there. -/
def discardLine : List Char → Option (List Char)
  | [] => none
  | c :: cs => if c = '\n' then some cs else discardLine cs

/-- Outcome of the scan loop: normal termination with the final maximum, the
non-terminating resynchronization, or fuel exhaustion of the model. -/
inductive LoopOut where
  | done (pmax : List Int)
  | hang
  | outOfFuel
deriving DecidableEq

/-- Fuel-indexed model of the `for (;;)` loop of `print_max`: read into `p`;
on `EmptyStreamError` break with the current maximum; on `InvalidSymbolError`
report and discard through the next newline, then retry; on success replace
`pmax` by `p` when `p > pmax`.  (The source's final catch-all branch is
unreachable here: `fromStream` throws only the two classified errors.) -/
def scanLoopF (n : Nat) : Nat → IState → List Int → List Int → LoopOut
  | 0, _, _, _ => .outOfFuel
  | fuel + 1, st, p, pmax =>
      match fromStream n st p with
      | ⟨some (.emptyStream _), _, _⟩ => .done pmax
      | ⟨some (.invalidSymbol _), st1, p1⟩ =>
          match discardLine st1.buf with
          | none => .hang
          | some rest => scanLoopF n fuel ⟨rest, false⟩ p1 pmax
      | ⟨none, st1, p1⟩ =>
          scanLoopF n fuel st1 p1 (if ptGT p1 pmax then p1 else pmax)

/-- Outcome of `print_max` on one file: first-read failure (function returns
with no result), a found maximum, the hang of the discard loop, or fuel
exhaustion of the model. -/
inductive PMOut where
  | firstFail
  | found (pmax : List Int)
  | hang
  | outOfFuel
deriving DecidableEq

/-- Model of `print_max` for component type `int` and size `n`: default-construct
`p` and `pmax` (all zero), read the first point into `pmax` (any failure
reports and returns), then run the scan loop. -/
def printMaxF (n fuel : Nat) (input : List Char) : PMOut :=
  match fromStream n ⟨input, false⟩ (zeroPt n) with
  | ⟨some _, _, _⟩ => .firstFail
  | ⟨none, st1, pmax⟩ =>
      match scanLoopF n fuel st1 (zeroPt n) pmax with
      | .done m => .found m
      | .hang => .hang
      | .outOfFuel => .outOfFuel

/-- The successive values produced by repeated `is >> temp` reads, stopping at
the first failed read: the "newly read values" that the component loop has
stored when it stops. -/
def readVals : IState → Nat → List Int
  | _, 0 => []
  | st, k + 1 =>
      match readInt st with
      | (none, _) => []
      | (some v, st1) => v :: readVals st1 k

/-- The component values a `fromStream` call on `st` stores before it stops:
none when the opening-marker read fails, otherwise the successfully read
values (at most `n`). -/
def valsAfterOpen (n : Nat) (st : IState) : List Int :=
  match readChar st with
  | (none, _) => []
  | (some c, st1) => if c = '(' then readVals st1 n else []

/-- Write the values `vs` into successive positions of `comps` starting at
index `i`, as the component loop's `components_[i] = temp` stores do. -/
def setMany : List Int → Nat → List Int → List Int
  | comps, _, [] => comps
  | comps, i, v :: vs => setMany (comps.set i v) (i + 1) vs

/-- A `double` value in exact decimal form: the rational `num * 10 ^ exp`. -/
structure Dec where
  num : Int
  exp : Int
deriving DecidableEq

/-- The two decimals denote the same (double) value: `n1*10^e1 = n2*10^e2`,
compared after scaling both to the smaller exponent. -/
def Dec.eqv (a b : Dec) : Prop :=
  a.num * 10 ^ (a.exp - min a.exp b.exp).toNat
    = b.num * 10 ^ (b.exp - min a.exp b.exp).toNat

instance (a b : Dec) : Decidable (Dec.eqv a b) :=
  inferInstanceAs (Decidable (_ = _))

/-- `a / b` rounded to the nearest natural, halves to even (the default
rounding of the decimal conversion), for `b > 0`. -/
def roundHalfEvenNat (a b : Nat) : Nat :=
  let q := a / b
  let r := a % b
  if 2 * r < b then q
  else if b < 2 * r then q + 1
  else if q % 2 = 0 then q else q + 1

/-- Remove trailing zero digits (the `%g` stripping of a trailing fractional
zero run). -/
def stripTZ (ds : List Nat) : List Nat :=
  (ds.reverse.dropWhile fun d => d = 0).reverse

/-- Scientific rendering `D.DDDDDe±EE` of a 6-digit mantissa `ds` and decimal
exponent `e`, trailing mantissa zeros stripped, at least two exponent
digits. -/
def sciChars (ds : List Nat) (e : Int) : List Char :=
  let m := stripTZ ds
  let tail := m.drop 1
  let ea := if e < 0 then (-e).toNat else e.toNat
  let edigits := if ea < 10 then '0' :: natChars ea else natChars ea
  (digitChar (m.headD 0) :: (if tail.isEmpty then [] else '.' :: tail.map digitChar))
    ++ ('e' :: (if e < 0 then '-' else '+') :: edigits)

/-- The `%g` text of the positive value `num * 10 ^ exp` (`num > 0`): round
to 6 significant digits, then choose fixed or scientific notation by the
decimal exponent. -/
def dblPosChars (num : Nat) (exp : Int) : List Char :=
  let d := (digitsOfNat num).length
  let e : Int := (d : Int) - 1 + exp
  let m0 := if d ≤ 6 then num * 10 ^ (6 - d) else roundHalfEvenNat num (10 ^ (d - 6))
  let me : Nat × Int := if (digitsOfNat m0).length = 7 then (m0 / 10, e + 1) else (m0, e)
  let ds := digitsOfNat me.1
  if 6 ≤ me.2 ∨ me.2 < -4 then sciChars ds me.2
  else if 0 ≤ me.2 then
    let ip := ds.take (me.2.toNat + 1)
    let fp := stripTZ (ds.drop (me.2.toNat + 1))
    ip.map digitChar ++ (if fp.isEmpty then [] else '.' :: fp.map digitChar)
  else
    '0' :: '.' :: (List.replicate (-me.2 - 1).toNat 0 ++ stripTZ ds).map digitChar

/-- Decimal text of a `double`, as `operator<<` emits it with the stream's
default precision of 6 significant digits. -/
def dblChars (q : Dec) : List Char :=
  if q.num = 0 then ['0']
  else if q.num < 0 then '-' :: dblPosChars (-q.num).toNat q.exp
  else dblPosChars q.num.toNat q.exp

/-- Exponent part of a `double` literal, after the `e`/`E` marker: an optional
sign and a nonempty digit run; `none` when no digit follows. -/
def lexExpAux : List Char → Option (Int × List Char)
  | [] => none
  | c :: cs =>
      let sr : Int × List Char :=
        if c = '-' then (-1, cs) else if c = '+' then (1, cs) else (1, c :: cs)
      let td := takeDigits sr.2
      if td.1 = [] then none
      else some (sr.1 * (digitsToNat td.1 : Int), td.2)

/-- The `num_get` lexing step for a `double` after the whitespace skip: the
significand digits around an optional decimal point, then an optional
exponent.  As for `int`, the error flag is set when no digit could be read or
when the token runs into end of input (`eofbit`). -/
def lexDouble : List Char → Option Dec × IState
  | [] => (none, ⟨[], true⟩)
  | c :: cs =>
      let sr : Int × List Char :=
        if c = '-' then (-1, cs) else if c = '+' then (1, cs) else (1, c :: cs)
      let ti := takeDigits sr.2
      let tf : List Nat × List Char :=
        match ti.2 with
        | '.' :: cs2 => takeDigits cs2
        | _ => ([], ti.2)
      if ti.1 = [] && tf.1 = [] then (none, ⟨tf.2, true⟩)
      else
        let m : Int := sr.1 * (digitsToNat (ti.1 ++ tf.1) : Int)
        let fe : Int := -(tf.1.length : Int)
        match tf.2 with
        | [] => (none, ⟨[], true⟩)
        | e :: cs3 =>
            if e = 'e' || e = 'E' then
              match lexExpAux cs3 with
              | none => (none, ⟨cs3, true⟩)
              | some er =>
                  if er.2 = [] then (none, ⟨[], true⟩)
                  else (some ⟨m, fe + er.1⟩, ⟨er.2, false⟩)
            else (some ⟨m, fe⟩, ⟨e :: cs3, false⟩)

/-- Models `is >> temp` for a `double`: a no-op on a failed stream, otherwise
skip whitespace and lex the literal. -/
def readDouble (st : IState) : Option Dec × IState :=
  if st.fail then (none, st) else lexDouble (skipWS st.buf)

/-- Outcome of one `fromStream` call of the `double` instantiation. -/
structure PResD where
  err : Option PointError
  st : IState
  comps : List Dec
deriving DecidableEq

/-- The component loop of `Point<double,n>::fromStream`, the same template
code as `readComps` instantiated at `T = double`. -/
def readCompsD : IState → List Dec → Nat → Nat → PResD
  | st, comps, _, 0 => ⟨none, st, comps⟩
  | st, comps, i, k + 1 =>
      match readDouble st with
      | (none, st1) =>
          ⟨some (.invalidSymbol "unable to read value"), ⟨st1.buf, false⟩, comps⟩
      | (some v, st1) => readCompsD st1 (comps.set i v) (i + 1) k

/-- Shallow embedding of `Point<double,n>::fromStream`, the same template
code as `fromStream` instantiated at `T = double`. -/
def fromStreamD (n : Nat) (st : IState) (comps : List Dec) : PResD :=
  match readChar st with
  | (none, st1) => ⟨some (.emptyStream "empty stream"), ⟨st1.buf, false⟩, comps⟩
  | (some c, st1) =>
      if c ≠ '(' then ⟨some (.invalidSymbol "invalid symbol"), st1, comps⟩
      else
        let r := readCompsD st1 comps 0 n
        match r.err with
        | some _ => r
        | none =>
            match readChar r.st with
            | (none, st2) => ⟨some (.emptyStream "empty stream"), ⟨st2.buf, false⟩, r.comps⟩
            | (some c2, st2) =>
                if c2 ≠ ')' then ⟨some (.invalidSymbol "invalid symbol"), st2, r.comps⟩
                else ⟨none, st2, r.comps⟩

/-- The component part of the serialized form of a `double` point. -/
def encodeValsD : List Dec → List Char
  | [] => []
  | v :: vs => dblChars v ++ ' ' :: encodeValsD vs

/-- Models `Point<double,n>::toStream`, the same template code as `toStream`
instantiated at `T = double`. -/
def toStreamD (comps : List Dec) : List Char :=
  '(' :: ' ' :: encodeValsD comps ++ [')']

/-! ### Lemmas about characters and digit text -/

theorem skipWS_cons_not (c : Char) (l : List Char) (h : isWS c = false) :
    skipWS (c :: l) = c :: l := by
  simp [skipWS, h]

theorem skipWS_ws_append (ws l : List Char) (h : ∀ c ∈ ws, isWS c = true) :
    skipWS (ws ++ l) = skipWS l := by
  induction ws with
  | nil => rfl
  | cons c cs ih =>
      have hc : isWS c = true := h c (List.mem_cons_self ..)
      simp only [List.cons_append, skipWS, hc, if_true]
      exact ih fun d hd => h d (List.mem_cons_of_mem _ hd)

theorem digitsAux_acc (f : Nat) :
    ∀ n acc, digitsAux f n acc = digitsAux f n [] ++ acc := by
  induction f with
  | zero => intro n acc; rfl
  | succ f ih =>
      intro n acc
      by_cases h : n < 10
      · simp [digitsAux, h]
      · simp only [digitsAux, if_neg h]
        rw [ih (n / 10) (n % 10 :: acc), ih (n / 10) [n % 10], List.append_assoc]
        rfl

theorem digitsToNat_digitsAux (f : Nat) :
    ∀ n, n < f → digitsToNat (digitsAux f n []) = n := by
  induction f with
  | zero => intro n h; omega
  | succ f ih =>
      intro n h
      by_cases h10 : n < 10
      · simp [digitsAux, h10, digitsToNat]
      · have hdiv : n / 10 < f := by
          have := Nat.div_lt_self (show 0 < n by omega) (show 1 < 10 by omega)
          omega
        simp only [digitsAux, if_neg h10]
        rw [digitsAux_acc]
        simp only [digitsToNat, List.foldl_append] at ih ⊢
        rw [show List.foldl (fun a d => 10 * a + d) 0 (digitsAux f (n / 10) []) = n / 10
            from ih (n / 10) hdiv]
        simp only [List.foldl_cons, List.foldl_nil]
        omega

theorem digitsToNat_digitsOfNat (n : Nat) : digitsToNat (digitsOfNat n) = n :=
  digitsToNat_digitsAux (n + 1) n (Nat.lt_succ_self n)

theorem digitsAux_lt10 (f : Nat) :
    ∀ n acc, (∀ d ∈ acc, d < 10) → ∀ d ∈ digitsAux f n acc, d < 10 := by
  induction f with
  | zero => intro n acc h; exact h
  | succ f ih =>
      intro n acc h
      by_cases h10 : n < 10
      · simp only [digitsAux, if_pos h10]
        intro d hd
        rcases List.mem_cons.mp hd with rfl | hd
        · exact h10
        · exact h d hd
      · simp only [digitsAux, if_neg h10]
        refine ih (n / 10) (n % 10 :: acc) ?_
        intro d hd
        rcases List.mem_cons.mp hd with rfl | hd
        · exact Nat.mod_lt _ (by omega)
        · exact h d hd

theorem digitsOfNat_lt10 (n : Nat) : ∀ d ∈ digitsOfNat n, d < 10 :=
  digitsAux_lt10 (n + 1) n [] (by intro d hd; simp at hd)

theorem digitsAux_ne_nil_of_acc (f : Nat) :
    ∀ n acc, acc ≠ [] → digitsAux f n acc ≠ [] := by
  induction f with
  | zero => intro n acc h; exact h
  | succ f ih =>
      intro n acc h
      by_cases h10 : n < 10
      · simp [digitsAux, h10]
      · simp only [digitsAux, if_neg h10]
        exact ih (n / 10) (n % 10 :: acc) (by simp)

theorem digitsOfNat_ne_nil (n : Nat) : digitsOfNat n ≠ [] := by
  show digitsAux (n + 1) n [] ≠ []
  by_cases h10 : n < 10
  · simp [digitsAux, h10]
  · simp only [digitsAux, if_neg h10]
    exact digitsAux_ne_nil_of_acc n (n / 10) [n % 10] (by simp)

theorem digitChar_isDig : ∀ d, d < 10 → isDig (digitChar d) = true := by decide

theorem digitChar_digVal : ∀ d, d < 10 → digVal (digitChar d) = d := by decide

theorem isDig_not_ws (c : Char) (h : isDig c = true) : isWS c = false := by
  cases hw : isWS c
  · rfl
  · exfalso
    simp only [isWS, Bool.or_eq_true, decide_eq_true_eq] at hw
    rcases hw with ((((rfl | rfl) | rfl) | rfl) | rfl) | rfl <;> revert h <;> decide

theorem isDig_ne_minus (c : Char) (h : isDig c = true) : c ≠ '-' := by
  rintro rfl; revert h; decide

theorem isDig_ne_plus (c : Char) (h : isDig c = true) : c ≠ '+' := by
  rintro rfl; revert h; decide

theorem takeDigits_mapped (ds : List Nat) (r : List Char) (h : ∀ d ∈ ds, d < 10) :
    takeDigits (ds.map digitChar ++ ' ' :: r) = (ds, ' ' :: r) := by
  induction ds with
  | nil =>
      simp only [List.map_nil, List.nil_append, takeDigits]
      norm_num [show isDig ' ' = false from rfl]
  | cons d ds ih =>
      have hd : d < 10 := h d (List.mem_cons_self ..)
      simp only [List.map_cons, List.cons_append, takeDigits, digitChar_isDig d hd, if_true,
        List.append_eq]
      rw [ih fun x hx => h x (List.mem_cons_of_mem _ hx)]
      simp [digitChar_digVal d hd]

/-! ### Lemmas about reading back serialized integers -/

theorem natChars_ne_nil (n : Nat) : natChars n ≠ [] := by
  simp [natChars, digitsOfNat_ne_nil]

theorem takeDigits_natChars (n : Nat) (r : List Char) :
    takeDigits (natChars n ++ ' ' :: r) = (digitsOfNat n, ' ' :: r) :=
  takeDigits_mapped (digitsOfNat n) r (digitsOfNat_lt10 n)

theorem readInt_intChars (ws : List Char) (v : Int) (r : List Char)
    (hws : ∀ c ∈ ws, isWS c = true) (hv : inRange32 v) :
    readInt ⟨ws ++ intChars v ++ ' ' :: r, false⟩ = (some v, ⟨' ' :: r, false⟩) := by
  have hrange : ¬(v < int32Min ∨ int32Max < v) := by
    rcases hv with ⟨h1, h2⟩; omega
  have hstep : readInt ⟨ws ++ intChars v ++ ' ' :: r, false⟩
      = lexInt (skipWS (ws ++ (intChars v ++ ' ' :: r))) := by
    simp [readInt, List.append_assoc]
  rw [hstep, skipWS_ws_append ws _ hws]
  by_cases hneg : v < 0
  · -- negative: a minus sign followed by the digits of -v
    have hbuf : intChars v ++ ' ' :: r = '-' :: (natChars (-v).toNat ++ ' ' :: r) := by
      simp [intChars, hneg]
    rw [hbuf, skipWS_cons_not '-' _ (by decide)]
    simp only [lexInt, if_true, takeDigits_natChars]
    rw [if_neg (by simpa using digitsOfNat_ne_nil (-v).toNat)]
    rw [if_neg (by simp)]
    simp only [digitsToNat_digitsOfNat, Int.toNat_of_nonneg (by omega : (0 : Int) ≤ -v)]
    rw [show (-1 : Int) * -v = v from by ring, if_neg hrange]
  · -- nonnegative: just the digits of v
    obtain ⟨d0, ds, hds⟩ := List.exists_cons_of_ne_nil (digitsOfNat_ne_nil v.toNat)
    have hmap : natChars v.toNat = digitChar d0 :: ds.map digitChar := by
      simp [natChars, hds]
    have hd0 : d0 < 10 := digitsOfNat_lt10 v.toNat d0 (by rw [hds]; exact List.mem_cons_self ..)
    have hdig : isDig (digitChar d0) = true := digitChar_isDig d0 hd0
    have hbuf : intChars v ++ ' ' :: r = digitChar d0 :: (ds.map digitChar ++ ' ' :: r) := by
      simp [intChars, hneg, hmap]
    rw [hbuf, skipWS_cons_not _ _ (isDig_not_ws _ hdig)]
    simp only [lexInt, if_neg (isDig_ne_minus _ hdig), if_neg (isDig_ne_plus _ hdig)]
    rw [show digitChar d0 :: (ds.map digitChar ++ ' ' :: r)
        = (d0 :: ds).map digitChar ++ ' ' :: r from by simp]
    rw [takeDigits_mapped (d0 :: ds) r (by rw [← hds]; exact digitsOfNat_lt10 v.toNat)]
    rw [if_neg (by simp)]
    rw [if_neg (by simp)]
    have hval : (1 : Int) * (digitsToNat (d0 :: ds) : Int) = v := by
      rw [← hds, digitsToNat_digitsOfNat, Int.toNat_of_nonneg (by omega)]
      ring
    simp only [hval]
    rw [if_neg hrange]

/-! ### Lemmas about `setMany`, `readVals` and the component loop -/

theorem setMany_cons_shift (vs : List Int) :
    ∀ (x : Int) (comps : List Int) (i : Nat),
      setMany (x :: comps) (i + 1) vs = x :: setMany comps i vs := by
  induction vs with
  | nil => intros; rfl
  | cons v vs ih =>
      intro x comps i
      simp only [setMany, List.set_cons_succ]
      exact ih x (comps.set i v) (i + 1)

theorem setMany_zero (vs : List Int) :
    ∀ comps : List Int, vs.length ≤ comps.length →
      setMany comps 0 vs = vs ++ comps.drop vs.length := by
  induction vs with
  | nil => intro comps h; simp [setMany]
  | cons v vs ih =>
      intro comps h
      cases comps with
      | nil => simp at h
      | cons c comps =>
          simp only [setMany, List.set_cons_zero]
          rw [show (0 : Nat) + 1 = 0 + 1 from rfl, setMany_cons_shift vs v comps 0]
          rw [ih comps (by simpa using h)]
          simp

theorem setMany_full (vs : List Int) (comps : List Int) (h : vs.length = comps.length) :
    setMany comps 0 vs = vs := by
  rw [setMany_zero vs comps (le_of_eq h), h, List.drop_length, List.append_nil]

theorem readVals_length (k : Nat) : ∀ st, (readVals st k).length ≤ k := by
  induction k with
  | zero => intro st; simp [readVals]
  | succ k ih =>
      intro st
      simp only [readVals]
      obtain ⟨o, st1⟩ := readInt st
      cases o with
      | none => simp
      | some v => simpa using Nat.succ_le_succ (ih st1)

theorem readComps_comps (k : Nat) :
    ∀ st comps i, (readComps st comps i k).comps = setMany comps i (readVals st k) := by
  induction k with
  | zero => intros; rfl
  | succ k ih =>
      intro st comps i
      simp only [readComps, readVals]
      obtain ⟨o, st1⟩ := readInt st
      cases o with
      | none => rfl
      | some v => exact ih st1 (comps.set i v) (i + 1)

theorem readComps_encode (vs : List Int) :
    ∀ (c0 : List Int) (i : Nat) (tail : List Char), (∀ v ∈ vs, inRange32 v) →
      readComps ⟨' ' :: encodeVals vs ++ tail, false⟩ c0 i vs.length
        = ⟨none, ⟨' ' :: tail, false⟩, setMany c0 i vs⟩ := by
  induction vs with
  | nil => intros; rfl
  | cons v vs ih =>
      intro c0 i tail hv
      have hbuf : ' ' :: encodeVals (v :: vs) ++ tail
          = [' '] ++ intChars v ++ ' ' :: (encodeVals vs ++ tail) := by
        simp [encodeVals]
      simp only [List.length_cons, readComps, hbuf]
      rw [readInt_intChars [' '] v (encodeVals vs ++ tail)
        (by intro c hc; simp at hc; rw [hc]; rfl) (hv v (List.mem_cons_self ..))]
      simp only [setMany]
      exact ih (c0.set i v) (i + 1) tail fun x hx => hv x (List.mem_cons_of_mem _ hx)

/-! ### Lemmas about `fromStream` -/

theorem readChar_cons (st : IState) (c : Char) (cs : List Char)
    (hf : st.fail = false) (h : skipWS st.buf = c :: cs) :
    readChar st = (some c, ⟨cs, false⟩) := by
  simp [readChar, hf, h]

theorem readChar_some_flag (st : IState) (c : Char) (st1 : IState)
    (h : readChar st = (some c, st1)) : st1.fail = false := by
  unfold readChar at h
  cases hfl : st.fail with
  | true => simp [hfl] at h
  | false =>
      simp only [hfl, Bool.false_eq_true, if_false] at h
      cases hsk : skipWS st.buf with
      | nil => simp [hsk] at h
      | cons d ds =>
          rw [hsk] at h
          simp only [Prod.mk.injEq] at h
          rw [← h.2]

theorem readComps_err_flag (k : Nat) :
    ∀ st comps i, (readComps st comps i k).err.isSome →
      (readComps st comps i k).st.fail = false := by
  induction k with
  | zero => intro st comps i h; simp [readComps] at h
  | succ k ih =>
      intro st comps i
      simp only [readComps]
      obtain ⟨o, st1⟩ := readInt st
      cases o with
      | none => intro _; rfl
      | some v => exact ih st1 (comps.set i v) (i + 1)

theorem fromStream_toStream (comps c0 : List Int)
    (h : ∀ v ∈ comps, inRange32 v) (hlen : c0.length = comps.length) :
    fromStream comps.length ⟨toStream comps, false⟩ c0 = ⟨none, ⟨[], false⟩, comps⟩ := by
  have h1 : readChar ⟨toStream comps, false⟩
      = (some '(', ⟨' ' :: encodeVals comps ++ [')'], false⟩) :=
    readChar_cons _ _ _ rfl (skipWS_cons_not _ _ (by decide))
  simp only [fromStream, h1]
  rw [if_neg (by simp)]
  rw [readComps_encode comps c0 0 [')'] h]
  simp only []
  have h2 : readChar ⟨' ' :: [')'], false⟩ = (some ')', ⟨[], false⟩) := by decide
  rw [h2]
  simp [setMany_full comps c0 hlen.symm]

theorem fromStream_openOnly (vs c0 : List Int)
    (h : ∀ v ∈ vs, inRange32 v) (hlen : c0.length = vs.length) :
    fromStream vs.length ⟨openOnly vs, false⟩ c0
      = ⟨some (.emptyStream "empty stream"), ⟨[], false⟩, vs⟩ := by
  have h1 : readChar ⟨openOnly vs, false⟩
      = (some '(', ⟨' ' :: encodeVals vs, false⟩) :=
    readChar_cons _ _ _ rfl (skipWS_cons_not _ _ (by decide))
  simp only [fromStream, h1]
  rw [if_neg (by simp)]
  rw [show (⟨' ' :: encodeVals vs, false⟩ : IState)
      = ⟨' ' :: encodeVals vs ++ [], false⟩ from by simp]
  rw [readComps_encode vs c0 0 [] h]
  simp only []
  have h2 : readChar ⟨' ' :: [], false⟩ = (none, ⟨[], true⟩) := by decide
  rw [h2]
  simp [setMany_full vs c0 hlen.symm]

/-! ### Lemmas about the distance accumulator -/

theorem sumSqAux_widened : ∀ (as bs : List Int) (acc s : Int),
    sumSqAux as bs acc = some s → s = acc + sumSqWidened as bs := by
  intro as
  induction as with
  | nil =>
      intro bs acc s h
      cases bs <;> simp [sumSqAux, sumSqWidened] at h ⊢ <;> omega
  | cons a as ih =>
      intro bs acc s h
      cases bs with
      | nil => simp [sumSqAux, sumSqWidened] at h ⊢; omega
      | cons b bs =>
          simp only [sumSqAux] at h
          by_cases h1 : a - b < int32Min ∨ int32Max < a - b
          · simp [h1] at h
          · simp only [h1, if_false] at h
            by_cases h2 : acc + (a - b) ^ 2 < int32Min ∨ int32Max < acc + (a - b) ^ 2
            · simp [h2] at h
            · simp only [h2, if_false] at h
              have := ih bs _ s h
              simp only [sumSqWidened]
              omega

theorem sumSqAux_zeroPt : ∀ (n : Nat) (acc : Int), inRange32 acc →
    sumSqAux (zeroPt n) (zeroPt n) acc = some acc := by
  intro n
  induction n with
  | zero => intro acc h; rfl
  | succ n ih =>
      intro acc h
      obtain ⟨ha1, ha2⟩ := h
      show sumSqAux ((0 : Int) :: zeroPt n) ((0 : Int) :: zeroPt n) acc = some acc
      simp only [sumSqAux]
      rw [if_neg (by norm_num [int32Min, int32Max])]
      rw [if_neg (by simp only [int32Min, int32Max] at ha1 ha2 ⊢; push_neg; omega)]
      have : acc + ((0 : Int) - 0) ^ 2 = acc := by ring
      rw [this]
      exact ih acc ⟨ha1, ha2⟩

theorem zeroPt_length (n : Nat) : (zeroPt n).length = n := by
  simp [zeroPt]

/-! ### Claim theorems -/

/-- C2: the claim says every scan terminates, the discard step included.  The
code's resynchronization is `while (infile.get() != '\n');`, which never
terminates once `get()` starts returning `EOF`: on the file contents
`"( 1 )\n( x"` the first record parses, the second fails with
`InvalidSymbolError`, and the discard loop then runs past end of input with no
newline left, spinning forever.  The model returns the divergence marker
`hang` exactly there. -/
theorem c2_discard_spins_at_eof : printMaxF 1 5 ("( 1 )\n( x".toList) = .hang := by
  decide

/-- C3 counterexample: the claim says `distance` equals the square root of the
real-domain (exact) sum of squared differences for integral `T` as well.  At
`p = (50000)`, `q = (0)` the single squared difference is `2500000000`, which
leaves the 32-bit `int` accumulator's range, so the source's `T`-typed
accumulation is not the widened sum (its behaviour is undefined), while the
widened form is `√2500000000 = 50000`. -/
theorem c3_counterexample :
    distanceI [50000] [0]
      ≠ some (Real.sqrt ((sumSqWidened [50000] [0] : Int) : ℝ)) := by
  have h : sumSqI [50000] [0] = none := by decide
  simp [distanceI, h]

/-- C3 amended: whenever every accumulation step of the `T = int` accumulator
stays in the 32-bit range (the accumulator is defined), `distance` equals the
square root of the exact real-domain sum of squared component differences. -/
theorem c3_distance_eq_widened_when_defined (p q : List Int) (s : Int)
    (h : sumSqI p q = some s) :
    distanceI p q = some (Real.sqrt ((sumSqWidened p q : Int) : ℝ)) := by
  have hs : s = sumSqWidened p q := by
    have := sumSqAux_widened p q 0 s h
    omega
  simp [distanceI, h, hs]

/-- C3 witness: a concrete in-range distance computation. -/
theorem c3_witness :
    sumSqI [3] [1] = some 4 ∧
    distanceI [3] [1] = some (Real.sqrt ((sumSqWidened [3] [1] : Int) : ℝ)) :=
  ⟨by decide, c3_distance_eq_widened_when_defined [3] [1] 4 (by decide)⟩

/-- C4 counterexample: the claim says end of input after data of the current
point was consumed fails with `InvalidSymbol`, never `EmptyStream`.  On the
input `"( 1 "` with `N = 1` the opening marker and the one component are
consumed, end of input is reached at the closing-marker read, and the code
throws `EmptyStreamError` there. -/
theorem c4_counterexample :
    (fromStream 1 ⟨"( 1 ".toList, false⟩ [0]).err
      = some (.emptyStream "empty stream") ∧
    ∀ m, (fromStream 1 ⟨"( 1 ".toList, false⟩ [0]).err
      ≠ some (.invalidSymbol m) := by
  have h : (fromStream 1 ⟨"( 1 ".toList, false⟩ [0]).err
      = some (.emptyStream "empty stream") := by decide
  refine ⟨h, ?_⟩
  rw [h]
  intro m hm
  simp at hm

/-- C4 amended: end of input at either marker read raises `EmptyStream` even
when earlier tokens of the current point were consumed; in particular, for
every point text truncated just before its closing parenthesis (all `N`
components already read), the parse fails with `EmptyStream`.  `InvalidSymbol`
is what an end of input during a component read raises. -/
theorem c4_truncated_at_close_is_empty (vs c0 : List Int)
    (h : ∀ v ∈ vs, inRange32 v) (hlen : c0.length = vs.length) :
    (fromStream vs.length ⟨openOnly vs, false⟩ c0).err
      = some (.emptyStream "empty stream") := by
  rw [fromStream_openOnly vs c0 h hlen]

/-- C4 witness: the truncated serialization of `(1)` yields `EmptyStream`. -/
theorem c4_witness :
    (∀ v ∈ ([1] : List Int), inRange32 v) ∧
    (fromStream 1 ⟨openOnly [1], false⟩ [0]).err
      = some (.emptyStream "empty stream") :=
  ⟨by decide, c4_truncated_at_close_is_empty [1] [0] (by decide) (by decide)⟩

/-- C5 counterexample: the claim asserts the round trip for floating-point
component types too, but the default stream output carries only 6 significant
digits.  The `double` point `(1234567)` serializes to `( 1.23457e+06 )`,
which parses back to the value `1234570 = 123457·10¹`, a different double
than `1234567`. -/
theorem c5_counterexample :
    toStreamD [⟨1234567, 0⟩] = "( 1.23457e+06 )".toList ∧
    (fromStreamD 1 ⟨toStreamD [⟨1234567, 0⟩], false⟩ [⟨0, 0⟩]).err = none ∧
    (fromStreamD 1 ⟨toStreamD [⟨1234567, 0⟩], false⟩ [⟨0, 0⟩]).comps = [⟨123457, 1⟩] ∧
    Dec.eqv ⟨123457, 1⟩ ⟨1234570, 0⟩ ∧
    ¬ Dec.eqv ⟨123457, 1⟩ ⟨1234567, 0⟩ :=
  ⟨by decide, by decide, by decide, by decide, by decide⟩

/-- C5 amended: for the integral instantiation, parsing the canonical
serialized form of any point recovers exactly that point (parse after
serialize is the identity), the stream ending cleanly with no error; for
floating-point components the serialized text carries only the stream's
default 6 significant digits, so the identity holds only for values that
survive that rounding. -/
theorem c5_roundtrip (comps : List Int) (h : ∀ v ∈ comps, inRange32 v) :
    fromStream comps.length ⟨toStream comps, false⟩ (zeroPt comps.length)
      = ⟨none, ⟨[], false⟩, comps⟩ :=
  fromStream_toStream comps (zeroPt comps.length) h (zeroPt_length _)

/-- C5 witness: a concrete round trip with a negative component. -/
theorem c5_witness :
    (∀ v ∈ ([3, -7] : List Int), inRange32 v) ∧
    fromStream 2 ⟨toStream [3, -7], false⟩ (zeroPt 2) = ⟨none, ⟨[], false⟩, [3, -7]⟩ :=
  ⟨by decide, c5_roundtrip [3, -7] (by decide)⟩

/-- C6 counterexample: the claim says `magnitude(p)` is a non-negative real
for every point, including integral components of arbitrary size.  At
`p = (50000)` the `int` accumulator of `distance(zero)` leaves its range
(`50000² = 2500000000 > 2³¹ - 1`), so the source computes no real magnitude at
all (undefined behaviour; `none` in the model). -/
theorem c6_counterexample : ¬ ∃ r : ℝ, magI [50000] = some r ∧ 0 ≤ r := by
  have h : magI [50000] = none := by
    show (sumSqI [50000] (zeroPt ([50000] : List Int).length)).map
        (fun s => Real.sqrt (s : ℝ)) = none
    rw [show zeroPt ([50000] : List Int).length = ([0] : List Int) from by decide]
    rw [show sumSqI [50000] [0] = none from by decide]
    rfl
  simp [h]

/-- C6 amended: whenever the `int` accumulator of `distance(zero)` stays in
range, the magnitude is a defined non-negative real; and the magnitude of the
default-constructed (all-zero) point is exactly `0`. -/
theorem c6_magnitude_nonneg_when_defined :
    (∀ (p : List Int) (s : Int), sumSqI p (zeroPt p.length) = some s →
      ∃ r : ℝ, magI p = some r ∧ 0 ≤ r) ∧
    (∀ n : Nat, magI (zeroPt n) = some 0) := by
  constructor
  · intro p s h
    refine ⟨Real.sqrt (s : ℝ), ?_, Real.sqrt_nonneg _⟩
    simp [magI, distanceI, h]
  · intro n
    have h : sumSqI (zeroPt n) (zeroPt (zeroPt n).length) = some 0 := by
      rw [zeroPt_length]
      exact sumSqAux_zeroPt n 0 (by norm_num [inRange32, int32Min, int32Max])
    simp [magI, distanceI, h]

/-- C6 witness: a concrete defined magnitude, and the zero point of size 2. -/
theorem c6_witness :
    (∃ r : ℝ, magI [3] = some r ∧ 0 ≤ r) ∧ magI (zeroPt 2) = some 0 :=
  ⟨c6_magnitude_nonneg_when_defined.1 [3] 9 (by decide),
   c6_magnitude_nonneg_when_defined.2 2⟩

/-- C7: the ordering is strict: two points of equal (defined) magnitude
compare greater in neither direction, and no point compares greater than
itself. -/
theorem c7_no_gt_on_equal_magnitude (p q : List Int) (r : ℝ)
    (h1 : magI p = some r) (h2 : magI q = some r) :
    ¬ ptGT p q ∧ ¬ ptGT q p ∧ ¬ ptGT p p := by
  refine ⟨?_, ?_, ?_⟩ <;> simp [ptGT, h1, h2]

/-- C7 witness: `(3,4)` and `(5,0)` both have magnitude `√25`. -/
theorem c7_witness : ¬ ptGT [3, 4] [5, 0] ∧ ¬ ptGT [5, 0] [3, 4] := by
  have h1 : magI [3, 4] = some (Real.sqrt ((25 : Int) : ℝ)) := by
    show (sumSqI [3, 4] (zeroPt ([3, 4] : List Int).length)).map
        (fun s => Real.sqrt (s : ℝ)) = _
    rw [show zeroPt ([3, 4] : List Int).length = ([0, 0] : List Int) from by decide]
    rw [show sumSqI [3, 4] [0, 0] = some 25 from by decide]
    rfl
  have h2 : magI [5, 0] = some (Real.sqrt ((25 : Int) : ℝ)) := by
    show (sumSqI [5, 0] (zeroPt ([5, 0] : List Int).length)).map
        (fun s => Real.sqrt (s : ℝ)) = _
    rw [show zeroPt ([5, 0] : List Int).length = ([0, 0] : List Int) from by decide]
    rw [show sumSqI [5, 0] [0, 0] = some 25 from by decide]
    rfl
  exact ⟨(c7_no_gt_on_equal_magnitude [3, 4] [5, 0] _ h1 h2).1,
    (c7_no_gt_on_equal_magnitude [3, 4] [5, 0] _ h1 h2).2.1⟩

/-- C8: on the two-character input `"( "` the opening marker is consumed, the
first component read then hits end of input, and the parse fails with
`InvalidSymbol` carrying "unable to read value" — not with `EmptyStream`. -/
theorem c8_unterminated_open (n : Nat) (h : 1 ≤ n) :
    (fromStream n ⟨['(', ' '], false⟩ (zeroPt n)).err
      = some (.invalidSymbol "unable to read value") ∧
    ∀ m, (fromStream n ⟨['(', ' '], false⟩ (zeroPt n)).err
      ≠ some (.emptyStream m) := by
  obtain ⟨k, rfl⟩ : ∃ k, n = k + 1 := ⟨n - 1, by omega⟩
  have h1 : readChar ⟨['(', ' '], false⟩ = (some '(', ⟨[' '], false⟩) := by decide
  have h2 : readInt ⟨[' '], false⟩ = (none, ⟨[], true⟩) := by decide
  have herr : (fromStream (k + 1) ⟨['(', ' '], false⟩ (zeroPt (k + 1))).err
      = some (.invalidSymbol "unable to read value") := by
    simp only [fromStream, h1]
    rw [if_neg (by simp)]
    simp only [readComps, h2]
  refine ⟨herr, ?_⟩
  rw [herr]
  intro m hm
  simp at hm

/-- C8 witness: the case `n = 1`. -/
theorem c8_witness :
    (fromStream 1 ⟨['(', ' '], false⟩ (zeroPt 1)).err
      = some (.invalidSymbol "unable to read value") :=
  (c8_unterminated_open 1 (by decide)).1

/-- C9: the parse is not atomic on the point: when `fromStream` fails, the
components array holds exactly the newly read values in its leading positions
(none of them when the opening-marker read failed, so the point is then
unchanged) while all later positions retain their previous values. -/
theorem c9_partial_update_frame (n : Nat) (st : IState) (comps : List Int)
    (hlen : comps.length = n) (hf : (fromStream n st comps).err.isSome = true) :
    (valsAfterOpen n st).length ≤ n ∧
    (fromStream n st comps).comps
      = valsAfterOpen n st ++ comps.drop (valsAfterOpen n st).length := by
  rcases hc : readChar st with ⟨co, st1⟩
  cases co with
  | none =>
      constructor
      · simp [valsAfterOpen, hc]
      · simp [fromStream, valsAfterOpen, hc]
  | some c =>
      by_cases hpar : c = '('
      · subst hpar
        have hvl : (readVals st1 n).length ≤ n := readVals_length n st1
        have hva : valsAfterOpen n st = readVals st1 n := by
          simp [valsAfterOpen, hc]
        rw [hva]
        refine ⟨hvl, ?_⟩
        have hset : setMany comps 0 (readVals st1 n)
            = readVals st1 n ++ comps.drop (readVals st1 n).length :=
          setMany_zero _ comps (by rw [hlen]; exact hvl)
        have hcm := readComps_comps n st1 comps 0
        rcases hr : readComps st1 comps 0 n with ⟨e2, st2, comps2⟩
        rw [hr] at hcm
        simp only [] at hcm
        simp only [fromStream, hc] at hf ⊢
        rw [if_neg (by simp)] at hf ⊢
        rw [hr] at hf ⊢
        cases e2 with
        | some e => simpa using hcm.trans hset
        | none =>
            rcases h2 : readChar st2 with ⟨co2, st3⟩
            simp only [h2] at hf
            cases co2 with
            | none => simpa using hcm.trans hset
            | some c2 =>
                by_cases hc2 : c2 = ')'
                · subst hc2
                  simp at hf
                · simp only [ne_eq, hc2, not_false_eq_true, if_true]
                  simpa using hcm.trans hset
      · constructor
        · simp [valsAfterOpen, hc, hpar]
        · have hva : valsAfterOpen n st = [] := by simp [valsAfterOpen, hc, hpar]
          rw [hva]
          simp [fromStream, hc, hpar]

/-- C9 witness: on `"( 7 x )"` with `N = 2` starting from `(9,9)`, the failed
parse leaves the point as `(7,9)`: first component overwritten, second
retained. -/
theorem c9_witness :
    (fromStream 2 ⟨"( 7 x )".toList, false⟩ [9, 9]).comps
      = valsAfterOpen 2 ⟨"( 7 x )".toList, false⟩
        ++ ([9, 9] : List Int).drop (valsAfterOpen 2 ⟨"( 7 x )".toList, false⟩).length :=
  (c9_partial_update_frame 2 ⟨"( 7 x )".toList, false⟩ [9, 9] (by decide) (by decide)).2

/-- C10: after every classified failure of `fromStream` the stream is left
non-failed: each throw either follows an `is.clear()` or occurs on a path
where no read set the flags. -/
theorem c10_stream_cleared_on_failure (n : Nat) (st : IState) (comps : List Int)
    (hf : (fromStream n st comps).err.isSome = true) :
    (fromStream n st comps).st.fail = false := by
  rcases hc : readChar st with ⟨co, st1⟩
  cases co with
  | none => simp [fromStream, hc]
  | some c =>
      have hst1 : st1.fail = false := readChar_some_flag st c st1 hc
      by_cases hpar : c = '('
      · subst hpar
        simp only [fromStream, hc] at hf ⊢
        rw [if_neg (by simp)] at hf ⊢
        have hflag := readComps_err_flag n st1 comps 0
        rcases hr : readComps st1 comps 0 n with ⟨e2, st2, comps2⟩
        rw [hr] at hflag hf
        cases e2 with
        | some e => exact hflag (by simp)
        | none =>
            rcases h2 : readChar st2 with ⟨co2, st3⟩
            simp only [h2] at hf
            cases co2 with
            | none => rfl
            | some c2 =>
                have hst3 : st3.fail = false := readChar_some_flag st2 c2 st3 h2
                by_cases hc2 : c2 = ')'
                · subst hc2
                  simp at hf
                · simp only [ne_eq, hc2, not_false_eq_true, if_true]
                  exact hst3
      · simp [fromStream, hc, hpar, hst1]

/-- C10 witness: the failed parse of `"( 7 x )"` leaves the stream usable. -/
theorem c10_witness :
    (fromStream 2 ⟨"( 7 x )".toList, false⟩ [9, 9]).st.fail = false :=
  c10_stream_cleared_on_failure 2 ⟨"( 7 x )".toList, false⟩ [9, 9] (by decide)

end PointScan
